import Mathlib

/-!
Formal verification of the core of a from-scratch Python RSA implementation.

The development shallowly embeds the arithmetic and cipher-orchestration
functions of the repository (crypto_math.py, rsa/utils.py, rsa/rsa_core.py)
as executable Lean definitions over Nat and Int, and proves the testable
properties stated in the specification about them.

Conventions of the embedding:
- Python arbitrary-precision non-negative integers are Nat; Bezout
  coefficients, which may be negative, are Int.
- Python while-loops are embedded either as well-founded recursion on the
  loop variant (when the loop provably terminates) or with an explicit fuel
  argument returning Option (when termination is the question at issue);
  a fuel-exhausted result of none for every fuel value witnesses divergence.
- Python exceptions are modelled by an Except result with a dedicated error
  type: PyError.keyTooSmall is the ValueError raised by encrypt,
  PyError.noInverse the ValueError raised by modinv, and
  PyError.zeroDivision the ZeroDivisionError Python raises on x % 0.
- Byte strings are lists of Nat; hypotheses record that entries are below
  256 where the Python bytes type guarantees it. Messages are represented
  by their UTF-8 byte encoding, which is what the Python code feeds to the
  block cipher after str.encode.
-/

namespace RSA

/-- Embedding of the while-loop body of modexpo from crypto_math.py.
The loop state is the reduced base x, the remaining exponent y, the modulus
d and the accumulator r; each iteration conditionally multiplies the
accumulator by x mod d, halves y, and squares x mod d. -/
def modexpoAux (x y d r : ℕ) : ℕ :=
  if y = 0 then r
  else modexpoAux ((x * x) % d) (y / 2) d (if y % 2 = 1 then (r * x) % d else r)
termination_by y
decreasing_by exact Nat.div_lt_self (Nat.pos_of_ne_zero (by assumption)) (by omega)

/-- Embedding of modexpo from crypto_math.py: square-and-multiply modular
exponentiation; the base is reduced modulo d first and the accumulator
starts at 1. -/
def modexpo (x y d : ℕ) : ℕ := modexpoAux (x % d) y d 1

/-- Loop invariant of modexpoAux: with an accumulator already reduced below
the modulus, the loop computes r * x ^ y modulo d. -/
theorem modexpoAux_spec (d : ℕ) (hd : 0 < d) :
    ∀ y x r, r < d → modexpoAux x y d r = (r * x ^ y) % d := by
  intro y
  induction y using Nat.strong_induction_on with
  | _ y ih =>
    intro x r hr
    rw [modexpoAux]
    by_cases hy : y = 0
    · simp [hy, Nat.mod_eq_of_lt hr]
    · rw [if_neg hy]
      have hy2 : y / 2 < y := Nat.div_lt_self (Nat.pos_of_ne_zero hy) (by omega)
      by_cases hodd : y % 2 = 1
      · rw [if_pos hodd, ih (y / 2) hy2 _ _ (Nat.mod_lt _ hd)]
        have hyeq : y = 2 * (y / 2) + 1 := by omega
        have h1 : r * x % d * (x * x % d) ^ (y / 2) ≡ r * x * (x * x) ^ (y / 2) [MOD d] :=
          Nat.ModEq.mul (Nat.mod_modEq _ _) (Nat.ModEq.pow _ (Nat.mod_modEq _ _))
        have h2 : r * x * (x * x) ^ (y / 2) = r * x ^ y := by
          conv_rhs => rw [hyeq]
          ring
        rw [h2] at h1
        exact h1
      · rw [if_neg hodd, ih (y / 2) hy2 _ _ hr]
        have hyeq : y = 2 * (y / 2) := by omega
        have h1 : r * (x * x % d) ^ (y / 2) ≡ r * (x * x) ^ (y / 2) [MOD d] :=
          Nat.ModEq.mul (Nat.ModEq.refl r) (Nat.ModEq.pow _ (Nat.mod_modEq _ _))
        have h2 : r * (x * x) ^ (y / 2) = r * x ^ y := by
          conv_rhs => rw [hyeq]
          ring
        rw [h2] at h1
        exact h1

/-- Correctness of modexpo for a modulus greater than 1: it returns
x ^ y % d. -/
theorem modexpo_spec (x y d : ℕ) (hd : 1 < d) : modexpo x y d = x ^ y % d := by
  rw [modexpo, modexpoAux_spec d (by omega) y (x % d) 1 hd]
  rw [one_mul, ← Nat.pow_mod]

/-- Bound for modexpo: the result is below the modulus whenever the modulus
is greater than 1. -/
theorem modexpo_lt (x y d : ℕ) (hd : 1 < d) : modexpo x y d < d := by
  rw [modexpo_spec x y d hd]
  exact Nat.mod_lt _ (by omega)

/-- Split point used by karatsuba_multiply from crypto_math.py: half of the
maximal decimal digit count of the operands. The Python expression
len(str(n)) equals Nat.log 10 n + 1 for every n, including n = 0. -/
def karatsuba_m (x y : ℕ) : ℕ := max (Nat.log 10 x + 1) (Nat.log 10 y + 1) / 2

/-- Lower bound on the split point once an operand has two decimal digits. -/
theorem karatsuba_m_pos (x y : ℕ) (hx : 10 ≤ x) : 1 ≤ karatsuba_m x y := by
  have h1 : 1 ≤ Nat.log 10 x := Nat.log_pos (by omega) hx
  have h2 : Nat.log 10 x + 1 ≤ max (Nat.log 10 x + 1) (Nat.log 10 y + 1) := le_max_left _ _
  unfold karatsuba_m
  omega

/-- Key fact for the termination of the Karatsuba recursion: the split power
10 ^ m never exceeds one of the two operands. -/
theorem karatsuba_pow_le (x y : ℕ) (hx : 10 ≤ x) (hy : 10 ≤ y) :
    10 ^ karatsuba_m x y ≤ x ∨ 10 ^ karatsuba_m x y ≤ y := by
  have hlogx : Nat.log 10 x ≤ Nat.log 10 (max x y) := Nat.log_mono_right (le_max_left x y)
  have hlogy : Nat.log 10 y ≤ Nat.log 10 (max x y) := Nat.log_mono_right (le_max_right x y)
  have h1 : 1 ≤ Nat.log 10 (max x y) := Nat.log_pos (by omega) (le_max_of_le_left hx)
  have hm : karatsuba_m x y ≤ Nat.log 10 (max x y) := by
    unfold karatsuba_m
    omega
  have hle : 10 ^ karatsuba_m x y ≤ max x y := by
    calc 10 ^ karatsuba_m x y ≤ 10 ^ Nat.log 10 (max x y) := Nat.pow_le_pow_right (by omega) hm
      _ ≤ max x y := Nat.pow_log_le_self 10 (by omega)
  exact le_max_iff.mp hle

/-- Termination of the low-halves recursive call of karatsuba_multiply. -/
theorem karatsuba_dec_low (x y : ℕ) (hx : 10 ≤ x) (hy : 10 ≤ y) :
    x % 10 ^ karatsuba_m x y + y % 10 ^ karatsuba_m x y < x + y := by
  have hb : x % 10 ^ karatsuba_m x y ≤ x := Nat.mod_le _ _
  have hd : y % 10 ^ karatsuba_m x y ≤ y := Nat.mod_le _ _
  have hpos : 0 < 10 ^ karatsuba_m x y := by positivity
  have hxm : x % 10 ^ karatsuba_m x y < 10 ^ karatsuba_m x y := Nat.mod_lt _ hpos
  have hym : y % 10 ^ karatsuba_m x y < 10 ^ karatsuba_m x y := Nat.mod_lt _ hpos
  rcases karatsuba_pow_le x y hx hy with hple | hple <;> omega

/-- Termination of the middle (sum-of-halves) recursive call of
karatsuba_multiply. -/
theorem karatsuba_dec_mid (x y : ℕ) (hx : 10 ≤ x) (hy : 10 ≤ y) :
    x / 10 ^ karatsuba_m x y + x % 10 ^ karatsuba_m x y +
      (y / 10 ^ karatsuba_m x y + y % 10 ^ karatsuba_m x y) < x + y := by
  have hm : 1 ≤ karatsuba_m x y := karatsuba_m_pos x y hx
  have hpow : 10 ≤ 10 ^ karatsuba_m x y := by
    calc (10 : ℕ) = 10 ^ 1 := (pow_one 10).symm
      _ ≤ 10 ^ karatsuba_m x y := Nat.pow_le_pow_right (by omega) hm
  have hxeq := Nat.div_add_mod x (10 ^ karatsuba_m x y)
  have hyeq := Nat.div_add_mod y (10 ^ karatsuba_m x y)
  have hxle : 2 * (x / 10 ^ karatsuba_m x y) ≤
      10 ^ karatsuba_m x y * (x / 10 ^ karatsuba_m x y) := Nat.mul_le_mul_right _ (by omega)
  have hyle : 2 * (y / 10 ^ karatsuba_m x y) ≤
      10 ^ karatsuba_m x y * (y / 10 ^ karatsuba_m x y) := Nat.mul_le_mul_right _ (by omega)
  rcases karatsuba_pow_le x y hx hy with hple | hple
  · have hdivpos : 1 ≤ x / 10 ^ karatsuba_m x y := (Nat.one_le_div_iff (by omega)).mpr hple
    omega
  · have hdivpos : 1 ≤ y / 10 ^ karatsuba_m x y := (Nat.one_le_div_iff (by omega)).mpr hple
    omega

/-- Termination of the high-halves recursive call of karatsuba_multiply. -/
theorem karatsuba_dec_high (x y : ℕ) (hx : 10 ≤ x) (hy : 10 ≤ y) :
    x / 10 ^ karatsuba_m x y + y / 10 ^ karatsuba_m x y < x + y := by
  have hm : 1 ≤ karatsuba_m x y := karatsuba_m_pos x y hx
  have hpow : 1 < 10 ^ karatsuba_m x y := by
    calc (1 : ℕ) < 10 ^ 1 := by omega
      _ ≤ 10 ^ karatsuba_m x y := Nat.pow_le_pow_right (by omega) hm
  have h1 : x / 10 ^ karatsuba_m x y < x := Nat.div_lt_self (by omega) hpow
  have h2 : y / 10 ^ karatsuba_m x y < y := Nat.div_lt_self (by omega) hpow
  omega

/-- Embedding of karatsuba_multiply from crypto_math.py: recursive Karatsuba
multiplication splitting at half of the decimal digit count. With
m = karatsuba_m x y, the high and low halves of x are x / 10 ^ m and
x % 10 ^ m, matching the Python integer division and modulus; the three
recursive products are combined over the integers, where the Python
subtraction z1 - z2 - z0 lives. The base case fires when either operand has
a single decimal digit. -/
def karatsuba_multiply (x y : ℕ) : ℤ :=
  if h : x < 10 ∨ y < 10 then (x : ℤ) * (y : ℤ)
  else
    karatsuba_multiply (x / 10 ^ karatsuba_m x y) (y / 10 ^ karatsuba_m x y) *
        10 ^ (2 * karatsuba_m x y) +
      (karatsuba_multiply (x / 10 ^ karatsuba_m x y + x % 10 ^ karatsuba_m x y)
          (y / 10 ^ karatsuba_m x y + y % 10 ^ karatsuba_m x y) -
        karatsuba_multiply (x / 10 ^ karatsuba_m x y) (y / 10 ^ karatsuba_m x y) -
        karatsuba_multiply (x % 10 ^ karatsuba_m x y) (y % 10 ^ karatsuba_m x y)) *
        10 ^ karatsuba_m x y +
      karatsuba_multiply (x % 10 ^ karatsuba_m x y) (y % 10 ^ karatsuba_m x y)
termination_by x + y
decreasing_by
  all_goals push_neg at h
  all_goals first
    | exact karatsuba_dec_high x y h.1 h.2
    | exact karatsuba_dec_mid x y h.1 h.2
    | exact karatsuba_dec_low x y h.1 h.2

/-- Correctness of the Karatsuba embedding: it computes the product. -/
theorem karatsuba_mul_eq (x y : ℕ) : karatsuba_multiply x y = (x : ℤ) * (y : ℤ) := by
  induction x, y using karatsuba_multiply.induct with
  | case1 x y h => rw [karatsuba_multiply, dif_pos h]
  | case2 x y h ih1 ih2 ih3 =>
    rw [karatsuba_multiply, dif_neg h, ih1, ih2, ih3]
    have hx : ((10 : ℤ)) ^ karatsuba_m x y * ((x / 10 ^ karatsuba_m x y : ℕ) : ℤ) +
        ((x % 10 ^ karatsuba_m x y : ℕ) : ℤ) = (x : ℤ) := by
      exact_mod_cast Nat.div_add_mod x (10 ^ karatsuba_m x y)
    have hy : ((10 : ℤ)) ^ karatsuba_m x y * ((y / 10 ^ karatsuba_m x y : ℕ) : ℤ) +
        ((y % 10 ^ karatsuba_m x y : ℕ) : ℤ) = (y : ℤ) := by
      exact_mod_cast Nat.div_add_mod y (10 ^ karatsuba_m x y)
    rw [← hx, ← hy]
    push_cast
    ring

/-- Errors raised by the Python code paths covered by this development.
keyTooSmall is the ValueError raised by encrypt when the modulus cannot hold
a single plaintext byte; noInverse is the ValueError raised by modinv when
the gcd is not 1; zeroDivision is the ZeroDivisionError Python raises when
modinv evaluates x % phi with phi = 0. -/
inductive PyError where
  | keyTooSmall : PyError
  | noInverse : PyError
  | zeroDivision : PyError
deriving DecidableEq

/-- Embedding of egcd from crypto_math.py: recursive extended Euclidean
algorithm. The inputs of interest are non-negative (Nat), for which the
Python operators b % a and b // a coincide with Nat.mod and Nat.div; the
Bezout coefficients may be negative and are integers. -/
def egcd (a b : ℕ) : ℕ × ℤ × ℤ :=
  if h : a = 0 then (b, 0, 1)
  else
    match egcd (b % a) a with
    | (g, x1, y1) => (g, y1 - ((b / a : ℕ) : ℤ) * x1, x1)
termination_by a
decreasing_by exact Nat.mod_lt _ (Nat.pos_of_ne_zero h)

/-- First component of egcd: it computes the greatest common divisor. -/
theorem egcd_fst (a b : ℕ) : (egcd a b).1 = Nat.gcd a b := by
  induction a using Nat.strong_induction_on generalizing b with
  | _ a ih =>
    rw [egcd]
    by_cases ha : a = 0
    · subst ha
      simp
    · rw [dif_neg ha]
      rcases hE : egcd (b % a) a with ⟨g, x1, y1⟩
      have hg : g = Nat.gcd (b % a) a := by
        have := ih (b % a) (Nat.mod_lt _ (Nat.pos_of_ne_zero ha)) a
        rw [hE] at this
        exact this
      dsimp only
      rw [hg, Nat.gcd_rec a b]

/-- Bezout identity for egcd: a times the second component plus b times the
third equals the gcd returned in the first component. -/
theorem egcd_bezout (a b : ℕ) :
    (a : ℤ) * (egcd a b).2.1 + (b : ℤ) * (egcd a b).2.2 = ((egcd a b).1 : ℤ) := by
  induction a using Nat.strong_induction_on generalizing b with
  | _ a ih =>
    rw [egcd]
    by_cases ha : a = 0
    · subst ha
      simp
    · rw [dif_neg ha]
      rcases hE : egcd (b % a) a with ⟨g, x1, y1⟩
      have hrec := ih (b % a) (Nat.mod_lt _ (Nat.pos_of_ne_zero ha)) a
      rw [hE] at hrec
      have hmod : ((b % a : ℕ) : ℤ) = (b : ℤ) - (a : ℤ) * ((b / a : ℕ) : ℤ) := by
        have h0 := Nat.div_add_mod b a
        have h1 : (a : ℤ) * ((b / a : ℕ) : ℤ) + ((b % a : ℕ) : ℤ) = (b : ℤ) := by
          exact_mod_cast h0
        linarith
      dsimp only
      linear_combination hrec - x1 * hmod

/-- Embedding of modinv from crypto_math.py: modular inverse via egcd. The
function raises ValueError when the gcd is not 1; when phi = 0 the Python
expression x % phi raises ZeroDivisionError, modelled by the zeroDivision
error; otherwise it returns x % phi, which for a positive modulus is the
non-negative representative, matching Int.emod. -/
def modinv (e phi : ℕ) : Except PyError ℤ :=
  match egcd e phi with
  | (g, x, _) =>
    if g ≠ 1 then .error .noInverse
    else if phi = 0 then .error .zeroDivision
    else .ok (x % (phi : ℤ))

/-- Embedding of gcd from crypto_math.py: the first component of egcd. -/
def gcd (e phi : ℕ) : ℕ := (egcd e phi).1

/-- The gcd wrapper of the code agrees with the mathematical gcd. -/
theorem gcd_eq (e phi : ℕ) : gcd e phi = Nat.gcd e phi := egcd_fst e phi

/-- Embedding of bytes_to_int from rsa/utils.py: the loop accumulates
byte * 256 ^ i over the bytes paired with their indices, interpreting the
block as a base-256 little-endian number. -/
def bytes_to_int (byte_block : List ℕ) : ℕ :=
  (byte_block.enum.map (fun p => p.2 * 256 ^ p.1)).sum

/-- Shifting the start index of the enumeration multiplies the little-endian
value by the corresponding power of 256. -/
theorem enumFrom_shift (l : List ℕ) : ∀ i : ℕ,
    ((List.enumFrom i l).map (fun p => p.2 * 256 ^ p.1)).sum =
      256 ^ i * ((List.enumFrom 0 l).map (fun p => p.2 * 256 ^ p.1)).sum := by
  induction l with
  | nil => intro i; simp
  | cons b rest ih =>
    intro i
    rw [List.enumFrom_cons, List.map_cons, List.sum_cons, ih (i + 1),
      List.enumFrom_cons, List.map_cons, List.sum_cons, ih 1]
    dsimp only
    ring

/-- Recursive characterisation of bytes_to_int: the head is the least
significant byte. -/
theorem bytes_to_int_cons (b : ℕ) (l : List ℕ) :
    bytes_to_int (b :: l) = b + 256 * bytes_to_int l := by
  show ((List.enumFrom 0 (b :: l)).map (fun p => p.2 * 256 ^ p.1)).sum = _
  rw [List.enumFrom_cons, List.map_cons, List.sum_cons, enumFrom_shift l 1]
  have hrest : bytes_to_int l = ((List.enumFrom 0 l).map (fun p => p.2 * 256 ^ p.1)).sum := rfl
  rw [hrest]
  dsimp only
  ring

/-- Value of bytes_to_int on the empty block. -/
theorem bytes_to_int_nil : bytes_to_int ([] : List ℕ) = 0 := rfl

/-- Embedding of the while-loop of int_to_bytes from rsa/utils.py: it peels
the least significant byte n % 256 and continues with n / 256 until n
reaches 0. -/
def int_to_bytes_go (n : ℕ) : List ℕ :=
  if h : n = 0 then []
  else n % 256 :: int_to_bytes_go (n / 256)
termination_by n
decreasing_by exact Nat.div_lt_self (Nat.pos_of_ne_zero h) (by omega)

/-- Embedding of int_to_bytes from rsa/utils.py: zero maps to the single
zero byte, and a positive integer to its minimal little-endian byte list. -/
def int_to_bytes (n : ℕ) : List ℕ :=
  if n = 0 then [0] else int_to_bytes_go n

/-- Integer-side round trip for the loop of int_to_bytes. -/
theorem bytes_to_int_go (n : ℕ) : bytes_to_int (int_to_bytes_go n) = n := by
  induction n using Nat.strong_induction_on with
  | _ n ih =>
    rw [int_to_bytes_go]
    by_cases hn : n = 0
    · simp [hn, bytes_to_int_nil]
    · rw [dif_neg hn, bytes_to_int_cons,
        ih (n / 256) (Nat.div_lt_self (Nat.pos_of_ne_zero hn) (by omega))]
      omega

/-- Byte-side round trip for the loop of int_to_bytes: a byte list whose
bytes are below 256 and whose last (most significant) byte is non-zero is
recovered exactly from its little-endian value. -/
theorem int_to_bytes_go_roundtrip (l : List ℕ) (hbytes : ∀ x ∈ l, x < 256)
    (hlast : l.getLast? ≠ some 0) : int_to_bytes_go (bytes_to_int l) = l := by
  induction l with
  | nil => rw [bytes_to_int_nil, int_to_bytes_go, dif_pos rfl]
  | cons b rest ih =>
    rw [bytes_to_int_cons]
    have hb : b < 256 := hbytes b (List.mem_cons_self b rest)
    cases rest with
    | nil =>
      have hbz : b ≠ 0 := by
        intro hb0
        apply hlast
        rw [hb0]
        rfl
      rw [bytes_to_int_nil]
      rw [int_to_bytes_go, dif_neg (by omega : ¬b + 256 * 0 = 0)]
      rw [int_to_bytes_go]
      rw [dif_pos (by omega : (b + 256 * 0) / 256 = 0)]
      have : (b + 256 * 0) % 256 = b := by omega
      rw [this]
    | cons c rest2 =>
      have hlast2 : (c :: rest2).getLast? ≠ some 0 := by
        rw [List.getLast?_cons_cons] at hlast
        exact hlast
      have hrec : int_to_bytes_go (bytes_to_int (c :: rest2)) = c :: rest2 :=
        ih (fun x hx => hbytes x (List.mem_cons_of_mem b hx)) hlast2
      have hpos : bytes_to_int (c :: rest2) ≠ 0 := by
        intro h0
        rw [h0, int_to_bytes_go, dif_pos rfl] at hrec
        exact List.cons_ne_nil c rest2 hrec.symm
      rw [int_to_bytes_go, dif_neg (by omega : ¬b + 256 * bytes_to_int (c :: rest2) = 0)]
      have hmod : (b + 256 * bytes_to_int (c :: rest2)) % 256 = b := by omega
      have hdiv : (b + 256 * bytes_to_int (c :: rest2)) / 256 = bytes_to_int (c :: rest2) := by
        omega
      rw [hmod, hdiv, hrec]

/-- Byte-side round trip through int_to_bytes for non-empty blocks with a
non-zero most significant byte. -/
theorem int_to_bytes_roundtrip (l : List ℕ) (hne : l ≠ []) (hbytes : ∀ x ∈ l, x < 256)
    (hlast : l.getLast? ≠ some 0) : int_to_bytes (bytes_to_int l) = l := by
  have hgo := int_to_bytes_go_roundtrip l hbytes hlast
  have hpos : bytes_to_int l ≠ 0 := by
    intro h0
    rw [h0, int_to_bytes_go, dif_pos rfl] at hgo
    exact hne hgo.symm
  rw [int_to_bytes, if_neg hpos, hgo]

/-- Size bound for bytes_to_int: a block of len bytes below 256 encodes to a
value below 256 ^ len. -/
theorem bytes_to_int_lt (l : List ℕ) (hbytes : ∀ x ∈ l, x < 256) :
    bytes_to_int l < 256 ^ l.length := by
  induction l with
  | nil => rw [bytes_to_int_nil]; simp
  | cons b rest ih =>
    rw [bytes_to_int_cons, List.length_cons, pow_succ]
    have hb : b < 256 := hbytes b (List.mem_cons_self b rest)
    have hr : bytes_to_int rest < 256 ^ rest.length :=
      ih (fun x hx => hbytes x (List.mem_cons_of_mem b hx))
    calc b + 256 * bytes_to_int rest < 256 + 256 * bytes_to_int rest := by omega
      _ = 256 * (bytes_to_int rest + 1) := by ring
      _ ≤ 256 * 256 ^ rest.length := by
          exact Nat.mul_le_mul_left 256 (by omega)
      _ = 256 ^ rest.length * 256 := by ring

/-- A non-empty block with a non-zero last byte has a positive value. -/
theorem bytes_to_int_pos (l : List ℕ) (hne : l ≠ []) (hbytes : ∀ x ∈ l, x < 256)
    (hlast : l.getLast? ≠ some 0) : 0 < bytes_to_int l := by
  rcases Nat.eq_zero_or_pos (bytes_to_int l) with h0 | h
  · exfalso
    have hgo := int_to_bytes_go_roundtrip l hbytes hlast
    rw [h0, int_to_bytes_go, dif_pos rfl] at hgo
    exact hne hgo.symm
  · exact h

/-- Fuel-indexed computation of the Python int.bit_length method used by
encrypt: the number of halvings needed to reach 0. The fuel argument makes
the recursion structural; bit_length instantiates it with the number
itself, which always suffices. -/
def bitlen_fuel : ℕ → ℕ → ℕ
  | _, 0 => 0
  | 0, _ + 1 => 0
  | fuel + 1, n + 1 => bitlen_fuel fuel ((n + 1) / 2) + 1

/-- Embedding of the Python expression n.bit_length(): 0 for n = 0, and
floor(log2 n) + 1 otherwise. -/
def bit_length (n : ℕ) : ℕ := bitlen_fuel n n

/-- Defining property of the fuel-indexed bit length on positive inputs
within fuel: it is the unique L with 2 ^ (L - 1) <= n < 2 ^ L. -/
theorem bitlen_fuel_bounds : ∀ fuel n : ℕ, 0 < n → n ≤ fuel →
    2 ^ (bitlen_fuel fuel n - 1) ≤ n ∧ n < 2 ^ bitlen_fuel fuel n := by
  intro fuel
  induction fuel with
  | zero => intro n hn hle; omega
  | succ fuel ih =>
    intro n hn hle
    match n, hn with
    | m + 1, _ =>
      rw [bitlen_fuel]
      by_cases hhalf : (m + 1) / 2 = 0
      · have hm : m = 0 := by omega
        subst hm
        rw [hhalf]
        norm_num [bitlen_fuel]
      · have hrec := ih ((m + 1) / 2) (Nat.pos_of_ne_zero hhalf) (by omega)
        have hb1 : 1 ≤ bitlen_fuel fuel ((m + 1) / 2) := by
          by_contra hb0
          have : bitlen_fuel fuel ((m + 1) / 2) = 0 := by omega
          rw [this] at hrec
          omega
        constructor
        · have h2 : 2 ^ (bitlen_fuel fuel ((m + 1) / 2) + 1 - 1) =
              2 * 2 ^ (bitlen_fuel fuel ((m + 1) / 2) - 1) := by
            rw [← pow_succ']
            congr 1
            omega
          rw [h2]
          omega
        · have h2 : 2 ^ (bitlen_fuel fuel ((m + 1) / 2) + 1) =
              2 * 2 ^ bitlen_fuel fuel ((m + 1) / 2) := by
            rw [← pow_succ']
          rw [h2]
          omega

/-- Characterisation of bit_length on positive inputs. -/
theorem bit_length_bounds (n : ℕ) (hn : 0 < n) :
    2 ^ (bit_length n - 1) ≤ n ∧ n < 2 ^ bit_length n :=
  bitlen_fuel_bounds n n hn le_rfl

/-- Embedding of the block-splitting loop of encrypt from rsa/rsa_core.py:
for i in range(0, len(message_bytes), k) the slice message_bytes[i:i+k] is
taken, so the blocks are the successive groups of k bytes, the last one
possibly shorter. The head and take (k - 1) formulation makes the recursion
structurally decreasing; encrypt only calls it with k at least 1, where it
agrees with the Python loop. -/
def split_blocks (k : ℕ) : List ℕ → List (List ℕ)
  | [] => []
  | b :: rest => (b :: rest.take (k - 1)) :: split_blocks k (rest.drop (k - 1))
termination_by l => l.length
decreasing_by simp only [List.length_drop, List.length_cons]; omega

/-- Concatenating the blocks recovers the original byte list. -/
theorem split_blocks_flatten (k : ℕ) : ∀ l : List ℕ, (split_blocks k l).flatten = l := by
  intro l
  generalize hL : l.length = N
  induction N using Nat.strong_induction_on generalizing l with
  | _ N ih =>
    cases l with
    | nil => rw [split_blocks]; rfl
    | cons b rest =>
      rw [split_blocks, List.flatten_cons]
      have hdrop : (rest.drop (k - 1)).length < N := by
        rw [← hL]
        simp only [List.length_drop, List.length_cons]
        omega
      rw [ih _ hdrop _ rfl]
      rw [List.cons_append, List.take_append_drop]

/-- Every block produced by split_blocks with k at least 1 is non-empty, has
at most k bytes, and draws its bytes from the input list. -/
theorem split_blocks_spec (k : ℕ) (hk : 1 ≤ k) : ∀ l bl : List ℕ,
    bl ∈ split_blocks k l → bl ≠ [] ∧ bl.length ≤ k ∧ ∀ x ∈ bl, x ∈ l := by
  intro l
  generalize hL : l.length = N
  induction N using Nat.strong_induction_on generalizing l with
  | _ N ih =>
    intro bl hbl
    cases l with
    | nil => rw [split_blocks] at hbl; exact absurd hbl (List.not_mem_nil bl)
    | cons b rest =>
      rw [split_blocks] at hbl
      rcases List.mem_cons.mp hbl with hhead | htail
      · subst hhead
        refine ⟨List.cons_ne_nil _ _, ?_, ?_⟩
        · simp only [List.length_cons, List.length_take]
          omega
        · intro x hx
          rcases List.mem_cons.mp hx with hx1 | hx2
          · exact hx1 ▸ List.mem_cons_self _ _
          · exact List.mem_cons_of_mem b (List.take_subset _ _ hx2)
      · have hdrop : (rest.drop (k - 1)).length < N := by
          rw [← hL]
          simp only [List.length_drop, List.length_cons]
          omega
        have hres := ih _ hdrop _ rfl bl htail
        exact ⟨hres.1, hres.2.1, fun x hx =>
          List.mem_cons_of_mem b (List.drop_subset _ _ (hres.2.2 x hx))⟩

/-- Embedding of encrypt from rsa/rsa_core.py, applied to the UTF-8 byte
encoding of the message. key_bytes is (n.bit_length() + 7) // 8 and the
maximal block size is key_bytes - 1; the Python test max_block_size <= 0
is the Nat test key_bytes - 1 = 0 because key_bytes is non-negative. On
success each block is encrypted as modexpo(bytes_to_int(block), e, n). -/
def encrypt (message_bytes : List ℕ) (public_key : ℕ × ℕ) : Except PyError (List ℕ) :=
  match public_key with
  | (e, n) =>
    if (bit_length n + 7) / 8 - 1 = 0 then .error .keyTooSmall
    else .ok ((split_blocks ((bit_length n + 7) / 8 - 1) message_bytes).map
        (fun block => modexpo (bytes_to_int block) e n))

/-- Embedding of decrypt from rsa/rsa_core.py up to the final UTF-8 decode:
each ciphertext block is decrypted as modexpo(c, d, n), converted back to
bytes with int_to_bytes, and the byte blocks are concatenated in order. The
Python function then decodes the bytes as UTF-8; the byte list returned
here is exactly the byte string that decode receives. -/
def decrypt_bytes (cipher_blocks : List ℕ) (private_key : ℕ × ℕ) : List ℕ :=
  match private_key with
  | (d, n) => (cipher_blocks.map (fun c => int_to_bytes (modexpo c d n))).flatten

/-- Fuel-indexed embedding of the exponent-selection loop of generate_keys
from rsa/rsa_core.py: while gcd(e, phi) != 1 the loop body replaces e by 3
and tests again. A result of none for every fuel value means the while-loop
never exits. The gcd used is the gcd wrapper of crypto_math.py. -/
def choose_e_loop (phi : ℕ) : ℕ → ℕ → Option ℕ
  | _, 0 => none
  | e, fuel + 1 => if gcd e phi ≠ 1 then choose_e_loop phi 3 fuel else some e

/-- Fuel-indexed embedding of generate_keys from rsa/rsa_core.py after the
prime pair (p, q) has been produced: n and phi are computed with
karatsuba_multiply, the public exponent starts at 65537 and is selected by
the while-loop, and d is obtained from modinv. none models a loop that
never exits; some (.error err) models a raised exception; some (.ok pair)
models a returned ((e, n), (d, n)) key pair. -/
def generate_keys_from (p q : ℕ) (fuel : ℕ) :
    Option (Except PyError ((ℕ × ℕ) × (ℕ × ℕ))) :=
  match choose_e_loop (karatsuba_multiply (p - 1) (q - 1)).toNat 65537 fuel with
  | none => none
  | some e =>
    match modinv e (karatsuba_multiply (p - 1) (q - 1)).toNat with
    | .error err => some (.error err)
    | .ok d =>
      some (.ok ((e, (karatsuba_multiply p q).toNat),
        (d.toNat, (karatsuba_multiply p q).toNat)))

/-- If neither 65537 nor 3 is coprime with phi, the exponent-selection loop
returns none whatever the fuel: the Python while-loop diverges. -/
theorem choose_e_loop_diverges (phi : ℕ) (h65537 : Nat.gcd 65537 phi ≠ 1)
    (h3 : Nat.gcd 3 phi ≠ 1) : ∀ fuel e, e = 65537 ∨ e = 3 →
    choose_e_loop phi e fuel = none := by
  intro fuel
  induction fuel with
  | zero => intro e _; rfl
  | succ fuel ih =>
    intro e he
    rw [choose_e_loop]
    have hg : gcd e phi ≠ 1 := by
      rw [gcd_eq]
      rcases he with he | he <;> rw [he]
      · exact h65537
      · exact h3
    rw [if_pos hg]
    exact ih 3 (Or.inr rfl)

/-- Fermat consequence used for the RSA identity: in ZMod p with p prime,
raising to a power congruent to 1 modulo p - 1 is the identity map, with no
coprimality assumption on the base. -/
theorem zmod_pow_eq_self (p : ℕ) (hp : p.Prime) (k : ℕ) (hk1 : 1 ≤ k)
    (hdvd : (p - 1) ∣ (k - 1)) (a : ZMod p) : a ^ k = a := by
  haveI : Fact p.Prime := ⟨hp⟩
  obtain ⟨t, ht⟩ := hdvd
  have hk : k = (p - 1) * t + 1 := by
    have h2 := hp.two_le
    omega
  by_cases ha : a = 0
  · subst ha
    rw [zero_pow (by omega : k ≠ 0)]
  · rw [hk, pow_add, pow_one, pow_mul, ZMod.pow_card_sub_one_eq_one ha, one_pow, one_mul]

/-- Core RSA identity: for distinct primes p and q and exponents with
e * d congruent to 1 modulo (p - 1)(q - 1), raising to the power e * d is
the identity modulo p * q on every residue, including those sharing a
factor with the modulus. -/
theorem rsa_identity (p q e d : ℕ) (hp : p.Prime) (hq : q.Prime) (hne : p ≠ q)
    (hed : (e * d) % ((p - 1) * (q - 1)) = 1) (m : ℕ) :
    m ^ (e * d) ≡ m [MOD p * q] := by
  have hk1 : 1 ≤ e * d := by
    rcases Nat.eq_zero_or_pos (e * d) with h0 | h
    · rw [h0] at hed
      simp at hed
    · exact h
  have hdvdphi : ((p - 1) * (q - 1)) ∣ (e * d - 1) := by
    have hdm := Nat.div_add_mod (e * d) ((p - 1) * (q - 1))
    exact ⟨(e * d) / ((p - 1) * (q - 1)), by omega⟩
  have hside : ∀ r : ℕ, r.Prime → (r - 1) ∣ ((p - 1) * (q - 1)) →
      m ^ (e * d) ≡ m [MOD r] := by
    intro r hr hrdvd
    have hdvd : (r - 1) ∣ (e * d - 1) := dvd_trans hrdvd hdvdphi
    have hz : ((m : ZMod r)) ^ (e * d) = (m : ZMod r) :=
      zmod_pow_eq_self r hr (e * d) hk1 hdvd (m : ZMod r)
    have hcast : ((m ^ (e * d) : ℕ) : ZMod r) = ((m : ℕ) : ZMod r) := by
      push_cast
      exact hz
    exact (ZMod.natCast_eq_natCast_iff _ _ _).mp hcast
  have hcop : Nat.Coprime p q := (Nat.coprime_primes hp hq).mpr hne
  refine (Nat.modEq_and_modEq_iff_modEq_mul hcop).mp ⟨?_, ?_⟩
  · exact hside p hp (Dvd.intro _ rfl)
  · exact hside q hq (Dvd.intro_left _ rfl)

/-- Per-block RSA round trip: decrypting the encryption of a block value m
below the modulus recovers m. -/
theorem modexpo_roundtrip (p q e d m : ℕ) (hp : p.Prime) (hq : q.Prime) (hne : p ≠ q)
    (hed : (e * d) % ((p - 1) * (q - 1)) = 1) (hm : m < p * q) :
    modexpo (modexpo m e (p * q)) d (p * q) = m := by
  have hn : 1 < p * q := by
    have h1 := hp.two_le
    have h2 := hq.two_le
    calc 1 < 2 * 2 := by omega
      _ ≤ p * q := Nat.mul_le_mul h1 h2
  rw [modexpo_spec _ _ _ hn, modexpo_spec _ _ _ hn, ← Nat.pow_mod, ← pow_mul]
  have hmod : m ^ (e * d) % (p * q) = m % (p * q) :=
    rsa_identity p q e d hp hq hne hed m
  rw [hmod, Nat.mod_eq_of_lt hm]

/-- Every block produced by split_blocks at the size used by encrypt has a
value strictly below the modulus. -/
theorem block_value_lt (n : ℕ) (hbig : 8 < bit_length n) (bl : List ℕ)
    (hlen : bl.length ≤ (bit_length n + 7) / 8 - 1) (hbytes : ∀ x ∈ bl, x < 256) :
    bytes_to_int bl < n := by
  have hn0 : 0 < n := by
    rcases Nat.eq_zero_or_pos n with h0 | h
    · rw [h0] at hbig
      exact absurd hbig (by decide)
    · exact h
  have hbounds := bit_length_bounds n hn0
  have hval : bytes_to_int bl < 256 ^ bl.length := bytes_to_int_lt bl hbytes
  have h256 : (256 : ℕ) = 2 ^ 8 := by norm_num
  calc bytes_to_int bl < 256 ^ bl.length := hval
    _ ≤ 256 ^ ((bit_length n + 7) / 8 - 1) := Nat.pow_le_pow_right (by omega) hlen
    _ = 2 ^ (8 * ((bit_length n + 7) / 8 - 1)) := by rw [h256, ← pow_mul]
    _ ≤ 2 ^ (bit_length n - 1) := Nat.pow_le_pow_right (by omega) (by omega)
    _ ≤ n := hbounds.1

/-- A list of positive naturals never has 0 as its last element. -/
theorem getLast?_ne_zero_of_pos (l : List ℕ) (hpos : ∀ x ∈ l, 0 < x) :
    l.getLast? ≠ some 0 := by
  intro hcontra
  cases l with
  | nil => exact Option.noConfusion hcontra
  | cons b rest =>
    have hne : b :: rest ≠ [] := List.cons_ne_nil b rest
    rw [List.getLast?_eq_getLast_of_ne_nil hne] at hcontra
    have h0 : (b :: rest).getLast hne = 0 := by
      injection hcontra
    have := hpos _ (List.getLast_mem hne)
    omega

end RSA

namespace RSA

/-- Claim C4: for all non-negative integers x and y, karatsuba_multiply
(recursive decimal-digit-split Karatsuba with base case when either operand
is below 10) equals the mathematical product x * y. -/
theorem C4_karatsuba_product (x y : ℕ) :
    karatsuba_multiply x y = ((x * y : ℕ) : ℤ) := by
  rw [karatsuba_mul_eq]
  push_cast
  ring

/-- Claim C5: for all base, exponent and modulus with modulus greater
than 1, modexpo lies in the interval from 0 (automatic over Nat) up to but
excluding the modulus, and equals base ^ exponent mod modulus. -/
theorem C5_modexpo_range_value (base exponent modulus : ℕ) (hm : 1 < modulus) :
    modexpo base exponent modulus < modulus ∧
      modexpo base exponent modulus = base ^ exponent % modulus :=
  ⟨modexpo_lt base exponent modulus hm, modexpo_spec base exponent modulus hm⟩

/-- Witness for C5 at base 2, exponent 10, modulus 1000. -/
theorem C5_modexpo_range_value_witness :
    modexpo 2 10 1000 < 1000 ∧ modexpo 2 10 1000 = 2 ^ 10 % 1000 :=
  C5_modexpo_range_value 2 10 1000 (by norm_num)

/-- Claim C7: for all a and b not both zero, egcd returns (g, x, y) with
a * x + b * y = g and g the greatest common divisor of a and b. -/
theorem C7_egcd_bezout_gcd (a b : ℕ) (hab : ¬(a = 0 ∧ b = 0)) :
    (a : ℤ) * (egcd a b).2.1 + (b : ℤ) * (egcd a b).2.2 = ((egcd a b).1 : ℤ) ∧
      (egcd a b).1 = Nat.gcd a b :=
  ⟨egcd_bezout a b, egcd_fst a b⟩

/-- Witness for C7 at the pair (240, 46). -/
theorem C7_egcd_bezout_gcd_witness :
    ((240 : ℕ) : ℤ) * (egcd 240 46).2.1 + ((46 : ℕ) : ℤ) * (egcd 240 46).2.2 =
        ((egcd 240 46).1 : ℤ) ∧ (egcd 240 46).1 = Nat.gcd 240 46 :=
  C7_egcd_bezout_gcd 240 46 (by norm_num)

/-- Counterexample for C8 as stated: the empty byte sequence vacuously has
no zero final byte, yet the round trip through the codec maps it to the
single zero byte, not back to the empty sequence, because int_to_bytes
sends 0 to a one-byte block. -/
theorem C8_empty_sequence_counterexample :
    int_to_bytes (bytes_to_int ([] : List ℕ)) ≠ ([] : List ℕ) := by
  rw [bytes_to_int_nil, int_to_bytes, if_pos rfl]
  exact List.cons_ne_nil 0 []

/-- Claim C8 amended: for every NON-EMPTY byte sequence whose final
(most-significant) byte is not zero, int_to_bytes inverts bytes_to_int. -/
theorem C8_roundtrip_amended (l : List ℕ) (hne : l ≠ []) (hbytes : ∀ x ∈ l, x < 256)
    (hlast : l.getLast? ≠ some 0) : int_to_bytes (bytes_to_int l) = l :=
  int_to_bytes_roundtrip l hne hbytes hlast

/-- Witness for the amended C8 at the block [7, 1]. -/
theorem C8_roundtrip_amended_witness : int_to_bytes (bytes_to_int [7, 1]) = [7, 1] :=
  C8_roundtrip_amended [7, 1] (by decide) (by decide) (by decide)

/-- Claim C9: the fixed textbook instance p = 61, q = 53, n = 3233,
phi = 3120, e = 17: the private exponent is 2753, encrypting the plaintext
integer 65 yields 2790, and decrypting 2790 yields 65. -/
theorem C9_textbook_instance :
    modinv 17 3120 = .ok 2753 ∧ modexpo 65 17 3233 = 2790 ∧
      modexpo 2790 2753 3233 = 65 := by
  refine ⟨?_, ?_, ?_⟩
  · have hE : egcd 17 3120 = (1, -367, 2) := by simp [egcd]
    unfold modinv
    rw [hE]
    dsimp only
    norm_num
  · simp [modexpo, modexpoAux]
  · simp [modexpo, modexpoAux]

/-- Claim C10: for every natural number n, bytes_to_int recovers n from
int_to_bytes n: the integer-side round trip through the block codec is
exact, with no precondition. -/
theorem C10_int_side_roundtrip (n : ℕ) : bytes_to_int (int_to_bytes n) = n := by
  rw [int_to_bytes]
  by_cases hn : n = 0
  · rw [if_pos hn, hn]
    decide
  · rw [if_neg hn]
    exact bytes_to_int_go n

/-- Claim C1: for every key pair ((e, n), (d, n)) satisfying the invariants
established by generate_keys (n = p * q for distinct primes p and q, and
e * d congruent to 1 modulo (p - 1)(q - 1)) and large enough for encrypt to
accept a block (bit length of n above 8), and for every message whose UTF-8
byte encoding contains no NUL byte, decrypting the encryption of the
message recovers the message bytes exactly, whether they fit in one block
or span several. -/
theorem C1_round_trip (p q e d : ℕ) (hp : Nat.Prime p) (hq : Nat.Prime q)
    (hne : p ≠ q) (hed : (e * d) % ((p - 1) * (q - 1)) = 1)
    (msg : List ℕ) (hbytes : ∀ b ∈ msg, 0 < b ∧ b < 256)
    (hbig : 8 < bit_length (p * q)) :
    ∃ cipher, encrypt msg (e, p * q) = .ok cipher ∧
      decrypt_bytes cipher (d, p * q) = msg := by
  have hK1 : 1 ≤ (bit_length (p * q) + 7) / 8 - 1 := by omega
  refine ⟨(split_blocks ((bit_length (p * q) + 7) / 8 - 1) msg).map
      (fun block => modexpo (bytes_to_int block) e (p * q)), ?_, ?_⟩
  · simp only [encrypt]
    rw [if_neg (by omega)]
  · simp only [decrypt_bytes, List.map_map]
    have hmap : (split_blocks ((bit_length (p * q) + 7) / 8 - 1) msg).map
        ((fun c => int_to_bytes (modexpo c d (p * q))) ∘
          (fun block => modexpo (bytes_to_int block) e (p * q))) =
        (split_blocks ((bit_length (p * q) + 7) / 8 - 1) msg).map id := by
      apply List.map_congr_left
      intro bl hbl
      have hspec := split_blocks_spec _ hK1 msg bl hbl
      have hbl_bytes : ∀ x ∈ bl, x < 256 := fun x hx => (hbytes x (hspec.2.2 x hx)).2
      have hbl_pos : ∀ x ∈ bl, 0 < x := fun x hx => (hbytes x (hspec.2.2 x hx)).1
      have hlt : bytes_to_int bl < p * q :=
        block_value_lt (p * q) hbig bl hspec.2.1 hbl_bytes
      have hrt := modexpo_roundtrip p q e d (bytes_to_int bl) hp hq hne hed hlt
      simp only [Function.comp_apply, id_eq]
      rw [hrt]
      exact int_to_bytes_roundtrip bl hspec.1 hbl_bytes
        (getLast?_ne_zero_of_pos bl hbl_pos)
    rw [hmap, List.map_id, split_blocks_flatten]

/-- Witness for C1 with the textbook key pair p = 61, q = 53, e = 17,
d = 2753 and the two-byte message [72, 105], which spans two blocks since
the 12-bit modulus allows one byte per block. -/
theorem C1_round_trip_witness :
    ∃ cipher, encrypt [72, 105] (17, 61 * 53) = .ok cipher ∧
      decrypt_bytes cipher (2753, 61 * 53) = [72, 105] :=
  C1_round_trip 61 53 17 2753 (by norm_num) (by norm_num) (by norm_num)
    (by norm_num) [72, 105] (by decide) (by decide)

/-- Claim C3: encrypt raises the key-too-small error exactly when the bit
length of n is at most 8; otherwise it splits the message bytes into the
blocks of split_blocks at size key_bytes - 1, every block has at most
key_bytes - 1 bytes, and the little-endian value of every block is
strictly below n. -/
theorem C3_encrypt_blocking (e n : ℕ) (msg : List ℕ) (hbytes : ∀ b ∈ msg, b < 256) :
    (encrypt msg (e, n) = .error .keyTooSmall ↔ bit_length n ≤ 8) ∧
    (8 < bit_length n →
      encrypt msg (e, n) = .ok ((split_blocks ((bit_length n + 7) / 8 - 1) msg).map
          (fun block => modexpo (bytes_to_int block) e n)) ∧
      ∀ bl ∈ split_blocks ((bit_length n + 7) / 8 - 1) msg,
        bl.length ≤ (bit_length n + 7) / 8 - 1 ∧ bytes_to_int bl < n) := by
  constructor
  · constructor
    · intro herr
      by_contra hgt
      simp only [encrypt] at herr
      rw [if_neg (by omega)] at herr
      exact Except.noConfusion herr
    · intro hle
      simp only [encrypt]
      rw [if_pos (by omega)]
  · intro hbig
    constructor
    · simp only [encrypt]
      rw [if_neg (by omega)]
    · intro bl hbl
      have hK1 : 1 ≤ (bit_length n + 7) / 8 - 1 := by omega
      have hspec := split_blocks_spec _ hK1 msg bl hbl
      have hbl_bytes : ∀ x ∈ bl, x < 256 := fun x hx => hbytes x (hspec.2.2 x hx)
      exact ⟨hspec.2.1, block_value_lt n hbig bl hspec.2.1 hbl_bytes⟩

/-- Witness for C3 at the textbook public key (17, 3233) and the two-byte
message [72, 105]. -/
theorem C3_encrypt_blocking_witness :
    (encrypt [72, 105] (17, 3233) = .error .keyTooSmall ↔ bit_length 3233 ≤ 8) ∧
    (8 < bit_length 3233 →
      encrypt [72, 105] (17, 3233) =
        .ok ((split_blocks ((bit_length 3233 + 7) / 8 - 1) [72, 105]).map
          (fun block => modexpo (bytes_to_int block) 17 3233)) ∧
      ∀ bl ∈ split_blocks ((bit_length 3233 + 7) / 8 - 1) [72, 105],
        bl.length ≤ (bit_length 3233 + 7) / 8 - 1 ∧ bytes_to_int bl < 3233) :=
  C3_encrypt_blocking 17 3233 [72, 105] (by decide)

/-- Claim C6: modinv raises the no-inverse error exactly when e and phi are
not coprime, and for every coprime pair with phi above 1 it returns a
non-negative value below phi whose product with e is 1 modulo phi. -/
theorem C6_modinv_spec (e phi : ℕ) :
    (modinv e phi = .error .noInverse ↔ Nat.gcd e phi ≠ 1) ∧
    (Nat.gcd e phi = 1 → 1 < phi →
      ∃ x : ℤ, modinv e phi = .ok x ∧ 0 ≤ x ∧ x < (phi : ℤ) ∧
        ((e : ℤ) * x) % (phi : ℤ) = 1) := by
  rcases hE : egcd e phi with ⟨g, x, y⟩
  have hfst := egcd_fst e phi
  rw [hE] at hfst
  have hbez := egcd_bezout e phi
  rw [hE] at hbez
  dsimp only at hfst hbez
  have huf : modinv e phi =
      (if g ≠ 1 then .error .noInverse
       else if phi = 0 then .error .zeroDivision else .ok (x % (phi : ℤ))) := by
    unfold modinv
    rw [hE]
  constructor
  · rw [huf]
    by_cases hg : g = 1
    · rw [if_neg (by omega)]
      constructor
      · intro hcontra
        by_cases hph : phi = 0
        · rw [if_pos hph] at hcontra
          exact absurd (Except.error.inj hcontra) (by decide)
        · rw [if_neg hph] at hcontra
          exact Except.noConfusion hcontra
      · intro hne1
        exact absurd (by rw [← hfst, hg]) hne1
    · rw [if_pos (by omega)]
      constructor
      · intro _
        rw [← hfst]
        exact hg
      · intro _
        rfl

  · intro hgcd hphi
    have hg1 : g = 1 := by rw [hfst, hgcd]
    refine ⟨x % (phi : ℤ), ?_, ?_, ?_, ?_⟩
    · rw [huf, if_neg (by omega), if_neg (by omega)]
    · exact Int.emod_nonneg x (by exact_mod_cast (by omega : phi ≠ 0))
    · exact Int.emod_lt_of_pos x (by exact_mod_cast (by omega : 0 < phi))
    · have hxmod : x % (phi : ℤ) ≡ x [ZMOD (phi : ℤ)] :=
        Int.emod_emod_of_dvd x dvd_rfl
      have h1 : (e : ℤ) * (x % (phi : ℤ)) ≡ (e : ℤ) * x [ZMOD (phi : ℤ)] :=
        hxmod.mul_left _
      have h2 : (e : ℤ) * x ≡ 1 [ZMOD (phi : ℤ)] := by
        apply Int.ModEq.symm
        apply Int.modEq_iff_dvd.mpr
        refine ⟨-y, ?_⟩
        rw [hg1] at hbez
        push_cast at hbez ⊢
        linarith
      have h3 := h1.trans h2
      have h4 : (1 : ℤ) % (phi : ℤ) = 1 :=
        Int.emod_eq_of_lt (by norm_num) (by exact_mod_cast hphi)
      rw [Int.ModEq] at h3
      rw [h3, h4]

/-- Witness for C6 at the coprime pair (17, 3120). -/
theorem C6_modinv_spec_witness :
    ∃ x : ℤ, modinv 17 3120 = .ok x ∧ 0 ≤ x ∧ x < (3120 : ℤ) ∧
      ((17 : ℤ) * x) % (3120 : ℤ) = 1 :=
  (C6_modinv_spec 17 3120).2 (by norm_num) (by norm_num)

/-- Claim C2, settled against the code: with the concrete prime pair
p = 917519 and q = 7 the totient (p - 1)(q - 1) = 5505108 is divisible by
both 65537 and 3, so the exponent-selection while-loop of generate_keys
never exits: the fuel-indexed embedding returns none for every fuel bound,
meaning the function neither returns a key pair nor raises, contradicting
the required fail-fast behaviour. -/
theorem C2_keygen_loop_diverges :
    Nat.Prime 917519 ∧ Nat.Prime 7 ∧ 917519 ≠ 7 ∧
      ∀ fuel : ℕ, generate_keys_from 917519 7 fuel = none := by
  refine ⟨by norm_num, by norm_num, by norm_num, ?_⟩
  intro fuel
  have hphi : (karatsuba_multiply (917519 - 1) (7 - 1)).toNat = 5505108 := by
    rw [karatsuba_mul_eq]
    decide
  have h65537 : Nat.gcd 65537 5505108 ≠ 1 := by
    intro h1
    have hdvd : (65537 : ℕ) ∣ 5505108 := ⟨84, by norm_num⟩
    have hd1 := Nat.dvd_gcd (dvd_refl 65537) hdvd
    rw [h1] at hd1
    exact absurd (Nat.le_of_dvd one_pos hd1) (by norm_num)
  have h3 : Nat.gcd 3 5505108 ≠ 1 := by
    intro h1
    have hdvd : (3 : ℕ) ∣ 5505108 := ⟨1835036, by norm_num⟩
    have hd1 := Nat.dvd_gcd (dvd_refl 3) hdvd
    rw [h1] at hd1
    exact absurd (Nat.le_of_dvd one_pos hd1) (by norm_num)
  have hloop := choose_e_loop_diverges 5505108 h65537 h3 fuel 65537 (Or.inl rfl)
  unfold generate_keys_from
  rw [hphi, hloop]

end RSA
